import Mathlib

/-!
Shallow embedding of the adaptive box-blur compute engine of the `zounds`
renderer (src/common/box.c, src/common/boxparams.c, src/common/subblock.h).

GPU kernel dispatches are modelled as values of a `Dispatch` record; the
host-side orchestration code is translated into pure functions that return
the list of dispatches it would enqueue, in order.  Machine integers
(`pix_t` = unsigned 32-bit, `int`) are modelled as `Nat` / `Int` with
explicit 32-bit wraparound where the C code relies on it (`P2ROUNDUP`).
-/

namespace Zounds

/-- `MAX_RADIUS` from subblock.h: the largest radius performed by the blur. -/
def MAX_RADIUS : Nat := 512

/-- `MAX_NBLOCKS` from subblock.h: the largest value of `nblocks` seen. -/
def MAX_NBLOCKS : Nat := 1024

/-- Unsigned 32-bit negation, as applied to a `pix_t` value `x < 2^32`. -/
def neg32 (x : Nat) : Nat := (2 ^ 32 - x % 2 ^ 32) % 2 ^ 32

/-- `P2ROUNDUP(x, align)` from common.h: `-(-(x) & -(align))`, evaluated in
unsigned 32-bit arithmetic (`pix_t`). -/
def p2roundup (x align : Nat) : Nat := neg32 (neg32 x &&& neg32 align)

/-- `box_kernel_t` from types.h (the three usable kernels; `BK_NUM_KERNELS`
is only a count marker). -/
inductive BoxKernel where
  | BK_MANUAL
  | BK_DIRECT
  | BK_SUBBLOCK
deriving DecidableEq, Repr, Fintype

open BoxKernel

/-- The kernel method name each `box_kernel_t` is bound to in `box_init`. -/
def kernelName : BoxKernel → String
  | BK_MANUAL => "manual_box_2d_r1"
  | BK_DIRECT => "direct_box_1d"
  | BK_SUBBLOCK => "subblock_box_1d"

/-- One enqueued GPU kernel dispatch: the kernel's method name, the
`width`/`height` arguments passed to it, the global and local work sizes,
the source and destination buffer handles, the radius argument, and the
subblock parameter-table buffer when one is bound. -/
structure Dispatch where
  kname : String
  width : Nat
  height : Nat
  g0 : Nat
  g1 : Nat
  l0 : Nat
  l1 : Nat
  src : Nat
  dst : Nat
  radius : Nat
  ptable : Option Nat
deriving DecidableEq, Repr

/-- The engine's module state: the scratch buffer handle, the two subblock
parameter-table buffer handles, and each kernel's maximum workgroup size
(`kernel_wgsize`). -/
structure BoxCtx where
  scratch : Nat
  wparams : Nat
  hparams : Nat
  wgsize : BoxKernel → Nat

/-- `invoke_box` from box.c: global size is `P2ROUNDUP` of each dimension
by the corresponding block extent; local size is the block extents. -/
def invoke_box (kn : String) (width height blockwidth blockheight src dst radius : Nat) :
    Dispatch :=
  { kname := kn
    width := width, height := height
    g0 := p2roundup width blockwidth, g1 := p2roundup height blockheight
    l0 := blockwidth, l1 := blockheight
    src := src, dst := dst, radius := radius, ptable := none }

/-- `invoke_sub` from box.c: global size is `(nblocks, P2ROUNDUP(height,
blockheight))`; local size is `(nblocks, blockheight)`; the subblock
parameter table is bound as the final argument. -/
def invoke_sub (kn : String) (width height nblocks blockheight src dst radius pt : Nat) :
    Dispatch :=
  { kname := kn
    width := width, height := height
    g0 := nblocks, g1 := p2roundup height blockheight
    l0 := nblocks, l1 := blockheight
    src := src, dst := dst, radius := radius, ptable := some pt }

/-- The `BK_MANUAL` pair loop of `box_blur_specific`: each iteration
dispatches source→scratch then scratch→dst, and rebinds the source to
`dst`. -/
def manualPairs (ctx : BoxCtx) (width height nblk h radius src dst : Nat) :
    Nat → List Dispatch
  | 0 => []
  | n + 1 =>
    invoke_box (kernelName BK_MANUAL) width height nblk h src ctx.scratch radius ::
    invoke_box (kernelName BK_MANUAL) width height nblk h ctx.scratch dst radius ::
    manualPairs ctx width height nblk h radius dst dst n

/-- The `BK_DIRECT` loop of `box_blur_specific`: each repetition dispatches
the 1-D pass with `(width, height)` into scratch, then with the dimensions
swapped into `dst`, and rebinds the source to `dst`. -/
def directReps (ctx : BoxCtx) (width height nblk h radius src dst : Nat) :
    Nat → List Dispatch
  | 0 => []
  | n + 1 =>
    invoke_box (kernelName BK_DIRECT) width height nblk h src ctx.scratch radius ::
    invoke_box (kernelName BK_DIRECT) height width nblk h ctx.scratch dst radius ::
    directReps ctx width height nblk h radius dst dst n

/-- The `BK_SUBBLOCK` loop of `box_blur_specific`: like `directReps` but via
`invoke_sub`, binding `subblock_W_params` to the first pass of each
repetition and `subblock_H_params` to the second. -/
def subReps (ctx : BoxCtx) (width height nblk h radius src dst : Nat) :
    Nat → List Dispatch
  | 0 => []
  | n + 1 =>
    invoke_sub (kernelName BK_SUBBLOCK) width height nblk h src ctx.scratch radius
      ctx.wparams ::
    invoke_sub (kernelName BK_SUBBLOCK) height width nblk h ctx.scratch dst radius
      ctx.hparams ::
    subReps ctx width height nblk h radius dst dst n

/-- `box_blur_specific` from box.c.  `nbox` is a C `int`, so it is modelled
as `Int` with truncated division/modulus; the failing-assertion branch
(`nblk * h != maxwg`) becomes an `Except.error`, since `assert` aborts the
process before anything is dispatched. -/
def box_blur_specific (ctx : BoxCtx) (src dst radius width height nblk : Nat)
    (bk : BoxKernel) (nbox : Int) : Except String (List Dispatch) :=
  let maxwg := ctx.wgsize bk
  let h := maxwg / nblk
  if nblk * h ≠ maxwg then
    .error "box_blur_specific: failing assertion: nblk * h != maxwg"
  else
    match bk with
    | BK_MANUAL =>
      if nbox.tmod 2 = 1 then
        .ok (invoke_box (kernelName BK_MANUAL) width height nblk h src dst radius ::
          manualPairs ctx width height nblk h radius dst dst (nbox.tdiv 2).toNat)
      else
        .ok (manualPairs ctx width height nblk h radius src dst (nbox.tdiv 2).toNat)
    | BK_DIRECT =>
      .ok (directReps ctx width height nblk h radius src dst nbox.toNat)
    | BK_SUBBLOCK =>
      .ok (subReps ctx width height nblk h radius src dst nbox.toNat)

/-- `box_params_t` from boxparams.c: blocks per line and kernel choice. -/
structure BoxParams where
  nblk : Nat
  bk : BoxKernel
deriving DecidableEq, Repr

/-- `boxparams_init_intel` from boxparams.c (the `device` argument is
unused by the heuristic). -/
def boxparams_init_intel (radius : Nat) : BoxParams :=
  if radius = 1 then ⟨32, BK_MANUAL⟩
  else if radius ≤ 7 then ⟨32, BK_DIRECT⟩
  else if radius ≤ 87 then ⟨256, BK_SUBBLOCK⟩
  else ⟨128, BK_SUBBLOCK⟩

/-- `boxparams_init_amd` from boxparams.c. -/
def boxparams_init_amd (radius : Nat) : BoxParams :=
  if radius = 1 then ⟨256, BK_MANUAL⟩
  else if radius ≤ 14 then ⟨16, BK_DIRECT⟩
  else if radius ≤ 18 then ⟨32, BK_DIRECT⟩
  else ⟨4, BK_SUBBLOCK⟩

/-- `boxparams_init_nvidia` from boxparams.c. -/
def boxparams_init_nvidia (radius : Nat) : BoxParams :=
  if radius = 1 then ⟨256, BK_MANUAL⟩
  else if radius ≤ 5 then ⟨128, BK_DIRECT⟩
  else if radius ≤ 9 then ⟨256, BK_DIRECT⟩
  else ⟨256, BK_SUBBLOCK⟩

/-- The vendor dispatch of `boxparams_init`: Intel, AMD and NVIDIA are
recognized by exact vendor-string match; any other vendor falls back to
the Intel parameters (with a warning). -/
def boxparams_vendor_fn (vendor : String) : Nat → BoxParams :=
  if vendor = "Intel Inc." then boxparams_init_intel
  else if vendor = "AMD" then boxparams_init_amd
  else if vendor = "NVIDIA Corporation" then boxparams_init_nvidia
  else boxparams_init_intel

/-- The `Bp.params` table after `boxparams_init`: slot `i` (0-based) holds
the heuristic's answer for radius `i + 1`, for all radii `1..MAX_RADIUS`. -/
def boxparams_init_table (vendor : String) : List BoxParams :=
  (List.range MAX_RADIUS).map (fun i => boxparams_vendor_fn vendor (i + 1))

/-- The `Bp.params` table after `boxparams_init_manual(nblk, bk)`: every
radius is forced to the one given entry. -/
def boxparams_manual_table (nblk : Nat) (bk : BoxKernel) : List BoxParams :=
  (List.range MAX_RADIUS).map (fun _ => ⟨nblk, bk⟩)

/-- `boxparams_get` from boxparams.c: read slot `radius - 1`; the
out-of-range assertion becomes `none`. -/
def boxparams_get (t : List BoxParams) (radius : Nat) : Option BoxParams :=
  if radius > 0 then t[radius - 1]? else none

/-- `box_blur` from box.c: look up the route for `radius` in the active
table, then run `box_blur_specific` on the full frame. -/
def box_blur (ctx : BoxCtx) (t : List BoxParams) (w h : Nat)
    (src dst radius : Nat) (nbox : Int) : Except String (List Dispatch) :=
  match boxparams_get t radius with
  | none => .error "boxparams_get: radius out of range"
  | some p => box_blur_specific ctx src dst radius w h p.nblk p.bk nbox

/-- The `nblocks` staging array built by `box_init_subblock_tables`:
starting from uninitialized memory (`none` everywhere), the loop
`for (radius = 1; radius < MAX_RADIUS; radius++)` stores the routing
table's block count for `radius` at index `radius - 1`. -/
def nblocksArr (t : List BoxParams) : Nat → Option Nat :=
  (List.range (MAX_RADIUS - 1)).foldl
    (fun a i => Function.update a i ((boxparams_get t (i + 1)).map BoxParams.nblk))
    (fun _ => none)

/-- One invocation of the `subblock_build_table` kernel: the destination
parameter-table buffer, the frame dimension passed, and the 2-D global
work size. -/
structure TableBuild where
  dst : Nat
  dim : Nat
  g0 : Nat
  g1 : Nat
deriving DecidableEq, Repr

/-- `box_init_subblock_tables` from box.c: build the `nblocks` array from
the routing table, then invoke the table-construction kernel once for the
width-oriented table (passing `Width`) and once for the height-oriented
table (passing `Height`), both with global size `(MAX_NBLOCKS, MAX_RADIUS)`. -/
def box_init_subblock_tables (ctx : BoxCtx) (t : List BoxParams) (w h : Nat) :
    (Nat → Option Nat) × List TableBuild :=
  (nblocksArr t,
    [⟨ctx.wparams, w, MAX_NBLOCKS, MAX_RADIUS⟩,
     ⟨ctx.hparams, h, MAX_NBLOCKS, MAX_RADIUS⟩])

/-- The kernel-level events of the `box_test` sweep: forcing the routing
table uniform and rebuilding the partition tables (`setup`), a blocking
`kernel_wait`, one `box_blur_specific(..., nbox = 1)` run (`blur`), and
storing the three per-run times and their average for a configuration
(`store`). -/
inductive TestEvent where
  | setup (nblk : Nat)
  | wait
  | blur (bk : BoxKernel) (nblk radius : Nat)
  | store (bk : BoxKernel) (nblk radius : Nat)
deriving DecidableEq, Repr

/-- The timed body for one `(bk, nblk, radius)` configuration in
`box_test`: an initial `kernel_wait`, then three blur runs each followed
by a blocking `kernel_wait`, then the recording of the three per-run
elapsed times and their average. -/
def configEvents (bk : BoxKernel) (nblk radius : Nat) : List TestEvent :=
  [.wait, .blur bk nblk radius, .wait, .blur bk nblk radius, .wait,
   .blur bk nblk radius, .wait, .store bk nblk radius]

/-- The radius loop of `box_test` over an explicit list of radii: the
`BK_MANUAL` case `break`s out of the loop at the first radius above 1. -/
def radiusSweep (bk : BoxKernel) (nblk : Nat) : List Nat → List TestEvent
  | [] => []
  | r :: rs =>
    if bk = BK_MANUAL ∧ r > 1 then []
    else configEvents bk nblk r ++ radiusSweep bk nblk rs

/-- The sweep loops of `box_test` as an event trace.  `maxnblk` is the
device's maximum workgroup size and `wg bk` each kernel's own workgroup
limit (`box_blur_maxwgsize`).  The C code computes `lognblk` with the
floating-point `log2`, which is exact on the power-of-two quotients the
sweep is run with; it is modelled by `Nat.log2`. -/
def box_test_trace (maxnblk : Nat) (wg : BoxKernel → Nat) (minr maxr : Nat) :
    List TestEvent :=
  let lognblk := Nat.log2 (maxnblk / 4)
  [BK_MANUAL, BK_DIRECT, BK_SUBBLOCK].flatMap (fun bk =>
    (List.range (lognblk + 1)).flatMap (fun i =>
      let nblk := maxnblk >>> i
      if nblk > wg bk then []
      else
        (if bk = BK_SUBBLOCK then [TestEvent.setup nblk] else []) ++
          radiusSweep bk nblk (List.range' minr (maxr + 1 - minr))))

/-- Modelled from the spec: "powers of two from the device's max workgroup
size down to a floor of 4", in descending order, for a device maximum of
`2 ^ K`. -/
def spec_pow2_desc (K : Nat) : List Nat :=
  (List.range (K - 1)).map (fun j => 2 ^ (K - j))

/-- Modelled from the spec's benchmark clause: for each strategy, for each
candidate block count (powers of two from the device maximum down to 4,
skipping candidates exceeding that strategy's own workgroup limit; for
`Subblock`, forcing the routing table uniform and rebuilding the partition
tables first), for each radius in range skipping `Manual` when radius > 1,
run the timed body. -/
def spec_box_test_trace (K : Nat) (wg : BoxKernel → Nat) (minr maxr : Nat) :
    List TestEvent :=
  [BK_MANUAL, BK_DIRECT, BK_SUBBLOCK].flatMap (fun bk =>
    (spec_pow2_desc K).flatMap (fun nblk =>
      if nblk > wg bk then []
      else
        (if bk = BK_SUBBLOCK then [TestEvent.setup nblk] else []) ++
          ((List.range' minr (maxr + 1 - minr)).filter
              (fun r => ! (decide (bk = BK_MANUAL) && decide (r > 1)))).flatMap
            (fun r => configEvents bk nblk r)))

/-- `UINT_MAX`, the initial value of `besttime` in the report loop. -/
def UINT_MAX : Nat := 4294967295

/-- The sentinel (`1e9`) that `box_test` stores in every `times` cell
before the sweep; cells of configurations that are never timed keep it. -/
def TIME_SENTINEL : Nat := 1000000000

/-- One step of the report loop of `box_test`: strict improvement on the
best time so far replaces the best `(bk, i)` pair. -/
def bestStep (t : BoxKernel → Nat → Nat) (acc : Option (BoxKernel × Nat) × Nat)
    (p : BoxKernel × Nat) : Option (BoxKernel × Nat) × Nat :=
  if t p.1 p.2 < acc.2 then (some p, t p.1 p.2) else acc

/-- The `(bk, i)` cells the report loop of `box_test` visits for one
radius: every kernel except `BK_MANUAL` when radius > 1 (`continue`),
crossed with every block-count index `0..lognblk`. -/
def consideredPairs (lognblk radius : Nat) : List (BoxKernel × Nat) :=
  ([BK_MANUAL, BK_DIRECT, BK_SUBBLOCK].filter
      (fun bk => ! (decide (bk = BK_MANUAL) && decide (radius > 1)))).flatMap
    (fun bk => (List.range (lognblk + 1)).map (fun i => (bk, i)))

/-- The report loop of `box_test` for one radius: fold the strict-minimum
update over the visited cells, starting from `besttime = UINT_MAX` (and
`bestbk`/`bestnblk` not yet assigned, modelled as `none`).  `t bk i` is
the recorded average time `times[bk][i][radius - min_radius]`. -/
def best_config (t : BoxKernel → Nat → Nat) (lognblk radius : Nat) :
    Option (BoxKernel × Nat) × Nat :=
  (consideredPairs lognblk radius).foldl (bestStep t) (none, UINT_MAX)

/-- Whether the sweep loops of `box_test` actually time the configuration
`(bk, i)` for a given radius: the candidate block count must not exceed
the kernel's own workgroup limit, and `BK_MANUAL` is only timed at
radius ≤ 1. -/
def sweptCfg (maxnblk : Nat) (wg : BoxKernel → Nat) (radius : Nat)
    (bk : BoxKernel) (i : Nat) : Prop :=
  maxnblk >>> i ≤ wg bk ∧ (bk = BK_MANUAL → radius ≤ 1)

instance (maxnblk : Nat) (wg : BoxKernel → Nat) (radius : Nat)
    (bk : BoxKernel) (i : Nat) : Decidable (sweptCfg maxnblk wg radius bk i) := by
  unfold sweptCfg; infer_instance

/-- Destination buffer of the final dispatch of a pass list. -/
def lastDst : List Dispatch → Option Nat
  | [] => none
  | [d] => some d.dst
  | _ :: d :: l => lastDst (d :: l)

/-- The dispatches of a blur invocation (none when the fatal assertion
fires, since the process aborts before enqueueing anything). -/
def dispatchList (r : Except String (List Dispatch)) : List Dispatch :=
  r.toOption.getD []

/-- Modelled from the spec: a separable pair of 1-D passes per repetition,
one axis-agnostic pass invoked once with `(width, height)` as given
writing to scratch and once with width and height swapped writing to
`dst`, chaining `src = dst` between repetitions; the first pass of a
repetition binds the width-oriented table argument, the second the
height-oriented one. -/
def specSepReps (mk : Nat → Nat → Nat → Nat → Option Nat → Dispatch)
    (w ht src dst scratch : Nat) (pW pH : Option Nat) : Nat → List Dispatch
  | 0 => []
  | n + 1 =>
    mk w ht src scratch pW :: mk ht w scratch dst pH ::
      specSepReps mk w ht dst dst scratch pW pH n

/-- A concrete engine context for evaluating the theorems: scratch buffer
handle 2, parameter-table handles 3 and 4, every kernel's maximum
workgroup size 256. -/
def ctx0 : BoxCtx := ⟨2, 3, 4, fun _ => 256⟩

theorem tmod_two_ne_one_of_nonpos (n : Int) (h : n ≤ 0) : n.tmod 2 ≠ 1 := by
  cases n with
  | ofNat m =>
    have hm : m = 0 := by rw [Int.ofNat_eq_coe] at h; omega
    subst hm; decide
  | negSucc m =>
    simp only [Int.tmod, Int.ofNat_eq_coe]
    omega

theorem tdiv_two_toNat_eq_zero (n : Int) (h : n ≤ 0) : (n.tdiv 2).toNat = 0 := by
  cases n with
  | ofNat m =>
    have hm : m = 0 := by rw [Int.ofNat_eq_coe] at h; omega
    subst hm; decide
  | negSucc m =>
    simp only [Int.tdiv, Int.ofNat_eq_coe]
    omega

theorem one_le_tdiv_toNat (n : Int) (h : 1 ≤ n) (h2 : n.tmod 2 ≠ 1) :
    1 ≤ (n.tdiv 2).toNat := by
  have ha := Int.tdiv_add_tmod n 2
  have hb : 0 ≤ n.tmod 2 := Int.tmod_nonneg 2 (by omega)
  have hc : n.tmod 2 < 2 := Int.tmod_lt_of_pos n (by norm_num)
  omega

theorem lastDst_cons_cons (a b : Dispatch) (l : List Dispatch) :
    lastDst (a :: b :: l) = lastDst (b :: l) := rfl

theorem manualPairs_lastDst (ctx : BoxCtx) (w ht nblk hh r dd : Nat) (n : Nat)
    (hn : 0 < n) : ∀ s, lastDst (manualPairs ctx w ht nblk hh r s dd n) =
      some ((invoke_box (kernelName BK_MANUAL) w ht nblk hh ctx.scratch dd r).dst) := by
  induction n with
  | zero => omega
  | succ m ih =>
    intro s
    cases m with
    | zero => rfl
    | succ k =>
      rw [show manualPairs ctx w ht nblk hh r s dd (k + 1 + 1) =
        invoke_box (kernelName BK_MANUAL) w ht nblk hh s ctx.scratch r ::
        invoke_box (kernelName BK_MANUAL) w ht nblk hh ctx.scratch dd r ::
        manualPairs ctx w ht nblk hh r dd dd (k + 1) from rfl]
      rw [lastDst_cons_cons]
      have hk : lastDst (manualPairs ctx w ht nblk hh r dd dd (k + 1)) =
          some ((invoke_box (kernelName BK_MANUAL) w ht nblk hh ctx.scratch dd r).dst) :=
        ih (by omega) dd
      cases hmp : manualPairs ctx w ht nblk hh r dd dd (k + 1) with
      | nil => rw [hmp] at hk; exact absurd hk (by simp [lastDst])
      | cons x xs => rw [hmp] at hk; rw [lastDst_cons_cons]; exact hk

theorem boxparams_get_init (vendor : String) (radius : Nat) (h1 : 1 ≤ radius)
    (h2 : radius ≤ MAX_RADIUS) :
    boxparams_get (boxparams_init_table vendor) radius =
      some (boxparams_vendor_fn vendor radius) := by
  have hlt : radius - 1 < MAX_RADIUS := by omega
  unfold boxparams_get boxparams_init_table
  rw [if_pos (by omega : radius > 0)]
  rw [List.getElem?_map, List.getElem?_range hlt]
  simp only [Option.map_some']
  rw [Nat.sub_add_cancel h1]

theorem intel_bk_manual_iff (radius : Nat) :
    (boxparams_init_intel radius).bk = BK_MANUAL ↔ radius = 1 := by
  unfold boxparams_init_intel
  split_ifs <;> simp_all

theorem amd_bk_manual_iff (radius : Nat) :
    (boxparams_init_amd radius).bk = BK_MANUAL ↔ radius = 1 := by
  unfold boxparams_init_amd
  split_ifs <;> simp_all

theorem nvidia_bk_manual_iff (radius : Nat) :
    (boxparams_init_nvidia radius).bk = BK_MANUAL ↔ radius = 1 := by
  unfold boxparams_init_nvidia
  split_ifs <;> simp_all

/-- C5: after `boxparams_init` runs for any device vendor (including the
unrecognized-vendor default), every radius in `[1, MAX_RADIUS]` has a
routing entry, and that entry's strategy is `BK_MANUAL` iff the radius
is 1. -/
theorem box_routing_manual_iff_radius_one (vendor : String) (radius : Nat)
    (h1 : 1 ≤ radius) (h2 : radius ≤ MAX_RADIUS) :
    ∃ p, boxparams_get (boxparams_init_table vendor) radius = some p ∧
      (p.bk = BK_MANUAL ↔ radius = 1) := by
  refine ⟨boxparams_vendor_fn vendor radius, boxparams_get_init vendor radius h1 h2, ?_⟩
  unfold boxparams_vendor_fn
  split_ifs
  · exact intel_bk_manual_iff radius
  · exact amd_bk_manual_iff radius
  · exact nvidia_bk_manual_iff radius
  · exact intel_bk_manual_iff radius

/-- C5 witness: the default-vendor table at radius 1 and radius 2. -/
theorem box_routing_manual_iff_radius_one_w :
    ∃ p, boxparams_get (boxparams_init_table "Imagination") 2 = some p ∧
      (p.bk = BK_MANUAL ↔ 2 = 1) :=
  box_routing_manual_iff_radius_one "Imagination" 2 (by norm_num) (by decide)

/-- C6: in `box_blur_specific`, `h` is the kernel's maximum workgroup size
divided by `nblk`, and the warning-plus-failing-assertion branch is taken
exactly when `nblk * h ≠ maxwg`; when `nblk` evenly divides the kernel's
maximum workgroup size, that branch is unreachable and dispatching
proceeds. -/
theorem box_wgsize_assert_iff (ctx : BoxCtx) (src dst radius width height nblk : Nat)
    (bk : BoxKernel) (nbox : Int) :
    ((box_blur_specific ctx src dst radius width height nblk bk nbox).toOption = none ↔
      nblk * (ctx.wgsize bk / nblk) ≠ ctx.wgsize bk) ∧
    (nblk ∣ ctx.wgsize bk →
      ∃ L, box_blur_specific ctx src dst radius width height nblk bk nbox =
        .ok L) := by
  constructor
  · by_cases hcond : nblk * (ctx.wgsize bk / nblk) = ctx.wgsize bk
    · apply iff_of_false
      · simp only [box_blur_specific, if_neg (not_not_intro hcond)]
        cases bk
        · by_cases hm : nbox.tmod 2 = 1
          · rw [if_pos hm]; simp [Except.toOption]
          · rw [if_neg hm]; simp [Except.toOption]
        · simp [Except.toOption]
        · simp [Except.toOption]
      · exact not_not_intro hcond
    · apply iff_of_true
      · rw [show box_blur_specific ctx src dst radius width height nblk bk nbox =
          .error "box_blur_specific: failing assertion: nblk * h != maxwg" from
            by simp only [box_blur_specific, if_pos hcond]]
        simp [Except.toOption]
      · exact hcond
  · intro hd
    have heq : nblk * (ctx.wgsize bk / nblk) = ctx.wgsize bk := Nat.mul_div_cancel' hd
    simp only [box_blur_specific, if_neg (not_not_intro heq)]
    cases bk
    · by_cases hm : nbox.tmod 2 = 1
      · rw [if_pos hm]; exact ⟨_, rfl⟩
      · rw [if_neg hm]; exact ⟨_, rfl⟩
    · exact ⟨_, rfl⟩
    · exact ⟨_, rfl⟩

/-- C6 witness: with every workgroup size 256 and `nblk = 32`, the
assertion cannot fire and the direct blur dispatches. -/
theorem box_wgsize_assert_iff_w :
    ∃ L, box_blur_specific ctx0 10 11 3 1920 1080 32 BK_DIRECT 1 = .ok L :=
  (box_wgsize_assert_iff ctx0 10 11 3 1920 1080 32 BK_DIRECT 1).2 (by decide)

/-- C1: for the Manual strategy and any `passCount ≥ 1`, when `passCount`
is odd one pass is dispatched straight from `src` into `dst` first, then
`passCount / 2` pairs of passes (current source→scratch, scratch→dst) are
dispatched with the source rebound to `dst` after each step; the final
dispatch always writes into `dst`, never into `scratch`. -/
theorem box_manual_parity (ctx : BoxCtx) (src dst radius width height nblk : Nat)
    (nbox : Int) (hnb : 1 ≤ nbox) (hdvd : nblk ∣ ctx.wgsize BK_MANUAL) :
    ∃ L, box_blur_specific ctx src dst radius width height nblk BK_MANUAL nbox =
        .ok L ∧
      (nbox.tmod 2 = 1 →
        L = invoke_box (kernelName BK_MANUAL) width height nblk
              (ctx.wgsize BK_MANUAL / nblk) src dst radius ::
            manualPairs ctx width height nblk (ctx.wgsize BK_MANUAL / nblk) radius
              dst dst (nbox.tdiv 2).toNat) ∧
      (nbox.tmod 2 ≠ 1 →
        L = manualPairs ctx width height nblk (ctx.wgsize BK_MANUAL / nblk) radius
              src dst (nbox.tdiv 2).toNat) ∧
      lastDst L = some dst := by
  have heq : nblk * (ctx.wgsize BK_MANUAL / nblk) = ctx.wgsize BK_MANUAL :=
    Nat.mul_div_cancel' hdvd
  by_cases hm : nbox.tmod 2 = 1
  · refine ⟨_, ?_, fun _ => rfl, fun hc => absurd hm hc, ?_⟩
    · simp only [box_blur_specific, if_neg (not_not_intro heq), if_pos hm]
    · by_cases hn : (nbox.tdiv 2).toNat = 0
      · rw [hn]; rfl
      · have hpos : 0 < (nbox.tdiv 2).toNat := Nat.pos_of_ne_zero hn
        have hl := manualPairs_lastDst ctx width height nblk
          (ctx.wgsize BK_MANUAL / nblk) radius dst ((nbox.tdiv 2).toNat) hpos dst
        cases hmp : manualPairs ctx width height nblk (ctx.wgsize BK_MANUAL / nblk)
            radius dst dst ((nbox.tdiv 2).toNat) with
        | nil => rw [hmp] at hl; exact absurd hl (by simp [lastDst])
        | cons y ys =>
          rw [hmp] at hl
          rw [lastDst_cons_cons, hl]
          rfl
  · refine ⟨_, ?_, fun hc => absurd hc hm, fun _ => rfl, ?_⟩
    · simp only [box_blur_specific, if_neg (not_not_intro heq), if_neg hm]
    · have hpos : 1 ≤ (nbox.tdiv 2).toNat := one_le_tdiv_toNat nbox hnb hm
      exact manualPairs_lastDst ctx width height nblk (ctx.wgsize BK_MANUAL / nblk)
        radius dst ((nbox.tdiv 2).toNat) hpos src

/-- C1 witness: three Manual passes on a concrete context end in `dst`. -/
theorem box_manual_parity_w :
    ∃ L, box_blur_specific ctx0 10 11 1 1920 1080 32 BK_MANUAL 3 = .ok L ∧
      ((3 : Int).tmod 2 = 1 →
        L = invoke_box (kernelName BK_MANUAL) 1920 1080 32
              (ctx0.wgsize BK_MANUAL / 32) 10 11 1 ::
            manualPairs ctx0 1920 1080 32 (ctx0.wgsize BK_MANUAL / 32) 1
              11 11 ((3 : Int).tdiv 2).toNat) ∧
      ((3 : Int).tmod 2 ≠ 1 →
        L = manualPairs ctx0 1920 1080 32 (ctx0.wgsize BK_MANUAL / 32) 1
              10 11 ((3 : Int).tdiv 2).toNat) ∧
      lastDst L = some 11 :=
  box_manual_parity ctx0 10 11 1 1920 1080 32 3 (by norm_num) (by decide)

theorem directReps_eq_spec (ctx : BoxCtx) (w ht nblk hh radius dst : Nat) :
    ∀ n s, directReps ctx w ht nblk hh radius s dst n =
      specSepReps
        (fun a b sb db _ => invoke_box (kernelName BK_DIRECT) a b nblk hh sb db radius)
        w ht s dst ctx.scratch none none n := by
  intro n
  induction n with
  | zero => intro s; rfl
  | succ m ih =>
    intro s
    simp only [directReps, specSepReps]
    rw [ih dst]

theorem subReps_eq_spec (ctx : BoxCtx) (w ht nblk hh radius dst : Nat) :
    ∀ n s, subReps ctx w ht nblk hh radius s dst n =
      specSepReps
        (fun a b sb db p =>
          invoke_sub (kernelName BK_SUBBLOCK) a b nblk hh sb db radius (p.getD 0))
        w ht s dst ctx.scratch (some ctx.wparams) (some ctx.hparams) n := by
  intro n
  induction n with
  | zero => intro s; rfl
  | succ m ih =>
    intro s
    simp only [subReps, specSepReps, Option.getD_some]
    rw [ih dst]

/-- C2: the Direct and Subblock strategies each dispatch the same 1-D pass
kernel exactly twice per repetition — first with `(width, height)` from
the current source into scratch, then with the dimensions swapped from
scratch into `dst` — rebinding the source to `dst` between repetitions;
Subblock binds `subblock_W_params` to the first pass of a repetition and
`subblock_H_params` to the second. -/
theorem box_separable_pass_shape (ctx : BoxCtx) (src dst radius w ht nblkD nblkS : Nat)
    (nboxD nboxS : Int)
    (hdD : nblkD ∣ ctx.wgsize BK_DIRECT) (hdS : nblkS ∣ ctx.wgsize BK_SUBBLOCK) :
    box_blur_specific ctx src dst radius w ht nblkD BK_DIRECT nboxD =
      .ok (specSepReps
        (fun a b sb db _ =>
          invoke_box (kernelName BK_DIRECT) a b nblkD
            (ctx.wgsize BK_DIRECT / nblkD) sb db radius)
        w ht src dst ctx.scratch none none nboxD.toNat) ∧
    box_blur_specific ctx src dst radius w ht nblkS BK_SUBBLOCK nboxS =
      .ok (specSepReps
        (fun a b sb db p =>
          invoke_sub (kernelName BK_SUBBLOCK) a b nblkS
            (ctx.wgsize BK_SUBBLOCK / nblkS) sb db radius (p.getD 0))
        w ht src dst ctx.scratch (some ctx.wparams) (some ctx.hparams)
        nboxS.toNat) := by
  constructor
  · have heq : nblkD * (ctx.wgsize BK_DIRECT / nblkD) = ctx.wgsize BK_DIRECT :=
      Nat.mul_div_cancel' hdD
    simp only [box_blur_specific, if_neg (not_not_intro heq)]
    exact congrArg Except.ok
      (directReps_eq_spec ctx w ht nblkD (ctx.wgsize BK_DIRECT / nblkD) radius dst
        nboxD.toNat src)
  · have heq : nblkS * (ctx.wgsize BK_SUBBLOCK / nblkS) = ctx.wgsize BK_SUBBLOCK :=
      Nat.mul_div_cancel' hdS
    simp only [box_blur_specific, if_neg (not_not_intro heq)]
    exact congrArg Except.ok
      (subReps_eq_spec ctx w ht nblkS (ctx.wgsize BK_SUBBLOCK / nblkS) radius dst
        nboxS.toNat src)

/-- C2 witness: one Direct and one Subblock repetition on a concrete
context. -/
theorem box_separable_pass_shape_w :
    box_blur_specific ctx0 10 11 3 1920 1080 32 BK_DIRECT 1 =
      .ok (specSepReps
        (fun a b sb db _ =>
          invoke_box (kernelName BK_DIRECT) a b 32
            (ctx0.wgsize BK_DIRECT / 32) sb db 3)
        1920 1080 10 11 ctx0.scratch none none (1 : Int).toNat) ∧
    box_blur_specific ctx0 10 11 3 1920 1080 64 BK_SUBBLOCK 1 =
      .ok (specSepReps
        (fun a b sb db p =>
          invoke_sub (kernelName BK_SUBBLOCK) a b 64
            (ctx0.wgsize BK_SUBBLOCK / 64) sb db 3 (p.getD 0))
        1920 1080 10 11 ctx0.scratch (some ctx0.wparams) (some ctx0.hparams)
        (1 : Int).toNat) :=
  box_separable_pass_shape ctx0 10 11 3 1920 1080 32 64 1 1 (by decide) (by decide)

theorem manualPairs_mem (ctx : BoxCtx) (w ht nblk hh r dd : Nat) (d : Dispatch) :
    ∀ n s, d ∈ manualPairs ctx w ht nblk hh r s dd n →
      (∃ sb, d = invoke_box (kernelName BK_MANUAL) w ht nblk hh sb ctx.scratch r) ∨
      (∃ sb, d = invoke_box (kernelName BK_MANUAL) w ht nblk hh sb dd r) := by
  intro n
  induction n with
  | zero => intro s h; simp [manualPairs] at h
  | succ m ih =>
    intro s h
    simp only [manualPairs, List.mem_cons] at h
    rcases h with h | h | h
    · exact Or.inl ⟨s, h⟩
    · exact Or.inr ⟨ctx.scratch, h⟩
    · exact ih dd h

theorem directReps_mem (ctx : BoxCtx) (w ht nblk hh r dd : Nat) (d : Dispatch) :
    ∀ n s, d ∈ directReps ctx w ht nblk hh r s dd n →
      (∃ sb, d = invoke_box (kernelName BK_DIRECT) w ht nblk hh sb ctx.scratch r) ∨
      (∃ sb, d = invoke_box (kernelName BK_DIRECT) ht w nblk hh sb dd r) := by
  intro n
  induction n with
  | zero => intro s h; simp [directReps] at h
  | succ m ih =>
    intro s h
    simp only [directReps, List.mem_cons] at h
    rcases h with h | h | h
    · exact Or.inl ⟨s, h⟩
    · exact Or.inr ⟨ctx.scratch, h⟩
    · exact ih dd h

theorem subReps_mem (ctx : BoxCtx) (w ht nblk hh r dd : Nat) (d : Dispatch) :
    ∀ n s, d ∈ subReps ctx w ht nblk hh r s dd n →
      (∃ sb, d = invoke_sub (kernelName BK_SUBBLOCK) w ht nblk hh sb ctx.scratch r
        ctx.wparams) ∨
      (∃ sb, d = invoke_sub (kernelName BK_SUBBLOCK) ht w nblk hh sb dd r
        ctx.hparams) := by
  intro n
  induction n with
  | zero => intro s h; simp [subReps] at h
  | succ m ih =>
    intro s h
    simp only [subReps, List.mem_cons] at h
    rcases h with h | h | h
    · exact Or.inl ⟨s, h⟩
    · exact Or.inr ⟨ctx.scratch, h⟩
    · exact ih dd h

theorem box_blur_specific_dst_mem (ctx : BoxCtx) (src dst radius w ht nblk : Nat)
    (bk : BoxKernel) (nbox : Int) (L : List Dispatch) (d : Dispatch)
    (hok : box_blur_specific ctx src dst radius w ht nblk bk nbox = .ok L)
    (hd : d ∈ L) : d.dst = ctx.scratch ∨ d.dst = dst := by
  cases bk
  · simp only [box_blur_specific] at hok
    split at hok
    · exact absurd hok (by simp)
    · split at hok
      · obtain rfl : _ = L := Except.ok.inj hok
        rcases List.mem_cons.mp hd with h | h
        · right; rw [h]; rfl
        · rcases manualPairs_mem ctx w ht nblk _ radius dst d _ dst h with ⟨sb, hsb⟩ | ⟨sb, hsb⟩
          · left; rw [hsb]; rfl
          · right; rw [hsb]; rfl
      · obtain rfl : _ = L := Except.ok.inj hok
        rcases manualPairs_mem ctx w ht nblk _ radius dst d _ src hd with ⟨sb, hsb⟩ | ⟨sb, hsb⟩
        · left; rw [hsb]; rfl
        · right; rw [hsb]; rfl
  · simp only [box_blur_specific] at hok
    split at hok
    · exact absurd hok (by simp)
    · obtain rfl : _ = L := Except.ok.inj hok
      rcases directReps_mem ctx w ht nblk _ radius dst d _ src hd with ⟨sb, hsb⟩ | ⟨sb, hsb⟩
      · left; rw [hsb]; rfl
      · right; rw [hsb]; rfl
  · simp only [box_blur_specific] at hok
    split at hok
    · exact absurd hok (by simp)
    · obtain rfl : _ = L := Except.ok.inj hok
      rcases subReps_mem ctx w ht nblk _ radius dst d _ src hd with ⟨sb, hsb⟩ | ⟨sb, hsb⟩
      · left; rw [hsb]; rfl
      · right; rw [hsb]; rfl

/-- C9: for every strategy, radius and `passCount ≥ 0`, when `src` is
distinct from `dst` and from the scratch buffer, no pass dispatched by
`box_blur` has the original `src` buffer as its destination. -/
theorem box_blur_preserves_src (ctx : BoxCtx) (t : List BoxParams) (w ht : Nat)
    (src dst radius : Nat) (nbox : Int) (h0 : 0 ≤ nbox)
    (h1 : src ≠ dst) (h2 : src ≠ ctx.scratch) (d : Dispatch)
    (hd : d ∈ dispatchList (box_blur ctx t w ht src dst radius nbox)) :
    d.dst ≠ src := by
  unfold box_blur at hd
  cases hg : boxparams_get t radius with
  | none => rw [hg] at hd; simp [dispatchList, Except.toOption] at hd
  | some p =>
    rw [hg] at hd
    dsimp only at hd
    cases hok : box_blur_specific ctx src dst radius w ht p.nblk p.bk nbox with
    | error e => rw [hok] at hd; simp [dispatchList, Except.toOption] at hd
    | ok L =>
      rw [hok] at hd; simp only [dispatchList, Except.toOption, Option.getD_some] at hd
      rcases box_blur_specific_dst_mem ctx src dst radius w ht p.nblk p.bk nbox L d
          hok hd with h | h
      · rw [h]; exact fun hc => h2 hc.symm
      · rw [h]; exact fun hc => h1 hc.symm

/-- C9 witness: a concrete Subblock blur never writes buffer 10 (`src`). -/
theorem box_blur_preserves_src_w :
    (invoke_sub (kernelName BK_SUBBLOCK) 1920 1080 128 2 10 2 1 3).dst ≠ 10 :=
  box_blur_preserves_src ctx0 [⟨128, BK_SUBBLOCK⟩] 1920 1080
    10 11 1 1 (by norm_num) (by norm_num) (by decide)
    (invoke_sub (kernelName BK_SUBBLOCK) 1920 1080 128 2 10 2 1 3)
    (by decide)

/-- C10: for every strategy and radius, a `box_blur` call with
`passCount ≤ 0` dispatches no kernel invocation at all. -/
theorem box_blur_nonpositive_empty (ctx : BoxCtx) (t : List BoxParams) (w ht : Nat)
    (src dst radius : Nat) (nbox : Int) (hnb : nbox ≤ 0) (p : BoxParams)
    (hg : boxparams_get t radius = some p) (hdvd : p.nblk ∣ ctx.wgsize p.bk) :
    box_blur ctx t w ht src dst radius nbox = .ok [] := by
  obtain ⟨pn, pb⟩ := p
  unfold box_blur
  rw [hg]
  have heq : pn * (ctx.wgsize pb / pn) = ctx.wgsize pb := Nat.mul_div_cancel' hdvd
  cases pb
  · simp only [box_blur_specific, if_neg (not_not_intro heq)]
    rw [if_neg (tmod_two_ne_one_of_nonpos nbox hnb),
      tdiv_two_toNat_eq_zero nbox hnb]
    rfl
  · simp only [box_blur_specific, if_neg (not_not_intro heq)]
    rw [Int.toNat_eq_zero.mpr hnb]
    rfl
  · simp only [box_blur_specific, if_neg (not_not_intro heq)]
    rw [Int.toNat_eq_zero.mpr hnb]
    rfl

/-- C10 witness: `passCount = 0` on a concrete table dispatches nothing. -/
theorem box_blur_nonpositive_empty_w :
    box_blur ctx0 [⟨16, BK_DIRECT⟩] 1920 1080 10 11 1 0 = .ok [] :=
  box_blur_nonpositive_empty ctx0 [⟨16, BK_DIRECT⟩] 1920 1080
    10 11 1 0 (by norm_num) ⟨16, BK_DIRECT⟩ (by decide) (by decide)

theorem foldl_update_apply (l : List Nat) (v : Nat → Option Nat)
    (a : Nat → Option Nat) (k : Nat) :
    (l.foldl (fun acc i => Function.update acc i (v i)) a) k =
      if k ∈ l then v k else a k := by
  induction l generalizing a with
  | nil => simp
  | cons x xs ih =>
    simp only [List.foldl_cons, ih]
    by_cases hx : k = x
    · subst hx
      simp [Function.update_apply]
    · by_cases hk : k ∈ xs
      · simp [hk]
      · simp [hk, hx, Function.update_apply]

theorem nblocksArr_spec (t : List BoxParams) (k : Nat) :
    nblocksArr t k =
      if k < MAX_RADIUS - 1 then (boxparams_get t (k + 1)).map BoxParams.nblk
      else none := by
  unfold nblocksArr
  rw [foldl_update_apply]
  simp [List.mem_range]

/-- C4 (code bug): the `nblocks` staging loop of `box_init_subblock_tables`
runs `for (radius = 1; radius < MAX_RADIUS; radius++)`, so the slot for
radius `MAX_RADIUS` itself (index `MAX_RADIUS - 1`) is never stored for
any routing table — contradicting the claim's "every radius in
`[1, MAX_RADIUS]`" — while radii up to `MAX_RADIUS - 1` are stored (e.g.
radius 511 on the Intel table gets block count 128), and the builder pass
is invoked once per axis with the frame's Width and then its Height. -/
theorem box_subblock_table_offbyone :
    (∀ t : List BoxParams, nblocksArr t (MAX_RADIUS - 1) = none) ∧
    nblocksArr (boxparams_init_table "Intel Inc.") (MAX_RADIUS - 2) = some 128 ∧
    (∀ (ctx : BoxCtx) (t : List BoxParams) (w h : Nat),
      (box_init_subblock_tables ctx t w h).2 =
        [⟨ctx.wparams, w, MAX_NBLOCKS, MAX_RADIUS⟩,
         ⟨ctx.hparams, h, MAX_NBLOCKS, MAX_RADIUS⟩]) := by
  refine ⟨?_, ?_, fun ctx t w h => rfl⟩
  · intro t
    rw [nblocksArr_spec]
    simp [MAX_RADIUS]
  · rw [nblocksArr_spec]
    rw [if_pos (by decide)]
    rw [show MAX_RADIUS - 2 + 1 = 511 from rfl]
    rw [boxparams_get_init "Intel Inc." 511 (by norm_num) (by decide)]
    rfl

theorem land_high_mask (y k : Nat) (hy : y < 2 ^ 32) (hk : k ≤ 32) :
    y &&& (2 ^ 32 - 2 ^ k) = y / 2 ^ k * 2 ^ k := by
  have hmask : 2 ^ 32 - 2 ^ k = (2 ^ (32 - k) - 1) <<< k := by
    rw [Nat.shiftLeft_eq, Nat.sub_mul, one_mul, ← pow_add]
    congr 2
    omega
  have hdiv : y / 2 ^ k * 2 ^ k = (y >>> k) <<< k := by
    rw [Nat.shiftRight_eq_div_pow, Nat.shiftLeft_eq]
  rw [hmask, hdiv]
  apply Nat.eq_of_testBit_eq
  intro j
  rw [Nat.testBit_land, Nat.testBit_shiftLeft, Nat.testBit_shiftLeft,
    Nat.testBit_shiftRight, Nat.testBit_two_pow_sub_one]
  by_cases hjk : k ≤ j
  · by_cases hj32 : j < 32
    · have h1 : j - k < 32 - k := by omega
      have h2 : k + (j - k) = j := by omega
      simp [hjk, h1, h2, ge_iff_le]
    · have h1 : y.testBit j = false := by
        apply Nat.testBit_eq_false_of_lt
        calc y < 2 ^ 32 := hy
        _ ≤ 2 ^ j := Nat.pow_le_pow_right (by norm_num) (by omega)
      have h2 : ¬(j - k < 32 - k) := by omega
      have h3 : k + (j - k) = j := by omega
      simp [hjk, h1, h2, h3, ge_iff_le]
  · simp [ge_iff_le, hjk]

/-- `P2ROUNDUP` agrees with arithmetic round-up to a multiple when the
alignment is a power of two and the value stays inside 32 bits — the
conditions under which the engine invokes it. -/
theorem p2roundup_pow2 (x k : Nat) (hk : k < 32) (hx : 0 < x)
    (hxb : x + 2 ^ k ≤ 2 ^ 32) :
    p2roundup x (2 ^ k) = (x + 2 ^ k - 1) / 2 ^ k * 2 ^ k := by
  have hkpos : 0 < 2 ^ k := Nat.two_pow_pos k
  have hx32 : x < 2 ^ 32 := by omega
  have hk32 : 2 ^ k < 2 ^ 32 := Nat.pow_lt_pow_right (by norm_num) hk
  unfold p2roundup neg32
  rw [Nat.mod_eq_of_lt hx32, Nat.mod_eq_of_lt hk32]
  have hnx : (2 ^ 32 - x) % 2 ^ 32 = 2 ^ 32 - x := Nat.mod_eq_of_lt (by omega)
  have hnk : (2 ^ 32 - 2 ^ k) % 2 ^ 32 = 2 ^ 32 - 2 ^ k := Nat.mod_eq_of_lt (by omega)
  rw [hnx, hnk]
  rw [land_high_mask (2 ^ 32 - x) k (by omega) (by omega)]
  have hdm := Nat.div_add_mod (2 ^ 32 - x) (2 ^ k)
  set q := (2 ^ 32 - x) / 2 ^ k with hq
  set r := (2 ^ 32 - x) % 2 ^ k with hr
  have hrlt : r < 2 ^ k := Nat.mod_lt _ hkpos
  have hz : q * 2 ^ k ≤ 2 ^ 32 - x := by
    rw [mul_comm]; omega
  have hzmod : (q * 2 ^ k) % 2 ^ 32 = q * 2 ^ k := Nat.mod_eq_of_lt (by omega)
  rw [hzmod]
  have hstep : 2 ^ 32 - q * 2 ^ k = x + r := by
    rw [mul_comm]; omega
  rw [hstep, Nat.mod_eq_of_lt (by omega)]
  have hM : 2 ^ k * 2 ^ (32 - k) = 2 ^ 32 := by rw [← pow_add]; congr 1; omega
  have hxdm := Nat.div_add_mod x (2 ^ k)
  set xq := x / 2 ^ k with hxq
  set xr := x % 2 ^ k with hxr
  have hxrlt : xr < 2 ^ k := Nat.mod_lt _ hkpos
  by_cases h0 : xr = 0
  · have hdvdx : 2 ^ k ∣ x := Nat.dvd_of_mod_eq_zero h0
    have hdvdM : (2 ^ k : Nat) ∣ 2 ^ 32 := ⟨2 ^ (32 - k), hM.symm⟩
    have hrz : r = 0 := by
      rw [hr]
      exact Nat.mod_eq_zero_of_dvd (Nat.dvd_sub' hdvdM hdvdx)
    rw [hrz, Nat.add_zero]
    have hkey : x + 2 ^ k - 1 = 2 ^ k * xq + (2 ^ k - 1) := by omega
    rw [hkey, Nat.mul_add_div hkpos, Nat.div_eq_of_lt (by omega), Nat.add_zero]
    rw [mul_comm]
    omega
  · have hle : xq + 1 ≤ 2 ^ (32 - k) := by
      by_contra hcon
      push_neg at hcon
      have h2 : 2 ^ k * 2 ^ (32 - k) ≤ 2 ^ k * xq :=
        Nat.mul_le_mul_left _ (by omega)
      rw [hM] at h2
      omega
    have hsplit : 2 ^ 32 - x = 2 ^ k * (2 ^ (32 - k) - xq - 1) + (2 ^ k - xr) := by
      have hmul : 2 ^ k * (2 ^ (32 - k) - xq - 1) =
          2 ^ k * 2 ^ (32 - k) - 2 ^ k * xq - 2 ^ k * 1 := by
        rw [← Nat.mul_sub, ← Nat.mul_sub]
      have h2 : 2 ^ k * (xq + 1) ≤ 2 ^ k * 2 ^ (32 - k) :=
        Nat.mul_le_mul_left _ hle
      rw [Nat.mul_add, Nat.mul_one] at h2
      rw [hmul, hM]
      omega
    have hrval : r = 2 ^ k - xr := by
      rw [hr, hsplit, Nat.mul_add_mod]
      exact Nat.mod_eq_of_lt (by omega)
    rw [hrval]
    have hkey : x + 2 ^ k - 1 = 2 ^ k * (xq + 1) + (xr - 1) := by
      have hmul : 2 ^ k * (xq + 1) = 2 ^ k * xq + 2 ^ k := by ring
      omega
    rw [hkey, Nat.mul_add_div hkpos, Nat.div_eq_of_lt (by omega), Nat.add_zero]
    have hmul : (xq + 1) * 2 ^ k = 2 ^ k * xq + 2 ^ k := by ring
    omega

/-- C3 counterexample: in the first Direct pass on a 1920×1080 frame with
`blockCount = 32` (workgroup size 256, so `h = 8`), the global work sizes
of the two dispatched passes have first component `P2ROUNDUP(primary
dimension, blockCount)` — 1920 and 1088 — not the claimed `blockCount`
(32). -/
theorem box_dispatch_sizing_cex :
    ((box_blur_specific ctx0 10 11 3 1920 1080 32 BK_DIRECT 1).toOption.getD []).map
        Dispatch.g0 = [1920, 1088] ∧ (1920 : Nat) ≠ 32 := by
  constructor
  · decide
  · decide

theorem dispatch_fields_box (kn : String) (W H nblk hh sb db r : Nat)
    (a k : Nat) (hnblk : nblk = 2 ^ a) (hhh : hh = 2 ^ k)
    (ha : a < 32) (hk : k < 32) (hW : 0 < W) (hH : 0 < H)
    (hWb : W + 2 ^ a ≤ 2 ^ 32) (hHb : H + 2 ^ k ≤ 2 ^ 32) :
    (invoke_box kn W H nblk hh sb db r).l0 = nblk ∧
    (invoke_box kn W H nblk hh sb db r).l1 = hh ∧
    (invoke_box kn W H nblk hh sb db r).g1 =
      ((invoke_box kn W H nblk hh sb db r).height + hh - 1) / hh * hh ∧
    (invoke_box kn W H nblk hh sb db r).g0 =
      ((invoke_box kn W H nblk hh sb db r).width + nblk - 1) / nblk * nblk := by
  subst hnblk hhh
  exact ⟨rfl, rfl, p2roundup_pow2 H k hk hH hHb, p2roundup_pow2 W a ha hW hWb⟩

theorem dispatch_fields_sub (kn : String) (W H nblk hh sb db r pt : Nat)
    (k : Nat) (hhh : hh = 2 ^ k) (hk : k < 32) (hH : 0 < H)
    (hHb : H + 2 ^ k ≤ 2 ^ 32) :
    (invoke_sub kn W H nblk hh sb db r pt).l0 = nblk ∧
    (invoke_sub kn W H nblk hh sb db r pt).l1 = hh ∧
    (invoke_sub kn W H nblk hh sb db r pt).g1 =
      ((invoke_sub kn W H nblk hh sb db r pt).height + hh - 1) / hh * hh ∧
    (invoke_sub kn W H nblk hh sb db r pt).g0 = nblk := by
  subst hhh
  exact ⟨rfl, rfl, p2roundup_pow2 H k hk hH hHb, rfl⟩

/-- C3 amended: every pass has local work size `(blockCount, h)` and
second global component `roundUp(its secondary dimension, h)`, but the
first global component is `blockCount` only for Subblock passes; Manual
and Direct passes use `roundUp(their primary dimension, blockCount)`
(`P2ROUNDUP`, exact for the power-of-two block extents in use). -/
theorem box_dispatch_sizing_amended (ctx : BoxCtx) (src dst radius w ht : Nat)
    (bk : BoxKernel) (nbox : Int) (a b : Nat)
    (hb32 : b < 32) (hab : a ≤ b)
    (hwg : ctx.wgsize bk = 2 ^ b)
    (hw : 0 < w) (hht : 0 < ht)
    (hwb : w + 2 ^ b ≤ 2 ^ 32) (hhtb : ht + 2 ^ b ≤ 2 ^ 32)
    (L : List Dispatch)
    (hok : box_blur_specific ctx src dst radius w ht (2 ^ a) bk nbox = .ok L)
    (d : Dispatch) (hd : d ∈ L) :
    d.l0 = 2 ^ a ∧ d.l1 = 2 ^ (b - a) ∧
    d.g1 = (d.height + 2 ^ (b - a) - 1) / 2 ^ (b - a) * 2 ^ (b - a) ∧
    (bk = BK_SUBBLOCK → d.g0 = 2 ^ a) ∧
    (bk ≠ BK_SUBBLOCK →
      d.g0 = (d.width + 2 ^ a - 1) / 2 ^ a * 2 ^ a) := by
  have hba : 2 ^ (b - a) ≤ 2 ^ b := Nat.pow_le_pow_right (by norm_num) (by omega)
  have haa : 2 ^ a ≤ 2 ^ b := Nat.pow_le_pow_right (by norm_num) hab
  have hdiveq : ctx.wgsize bk / 2 ^ a = 2 ^ (b - a) := by
    rw [hwg, Nat.pow_div hab (by norm_num)]
  cases bk
  · simp only [box_blur_specific, hdiveq] at hok
    split at hok
    · exact absurd hok (by simp)
    · have hmem : (∃ sb, d = invoke_box (kernelName BK_MANUAL) w ht (2 ^ a)
            (2 ^ (b - a)) sb ctx.scratch radius) ∨
          (∃ sb, d = invoke_box (kernelName BK_MANUAL) w ht (2 ^ a)
            (2 ^ (b - a)) sb dst radius) := by
        split at hok
        · obtain rfl : _ = L := Except.ok.inj hok
          rcases List.mem_cons.mp hd with h | h
          · exact Or.inr ⟨src, h⟩
          · exact manualPairs_mem ctx w ht (2 ^ a) (2 ^ (b - a)) radius dst d _ dst h
        · obtain rfl : _ = L := Except.ok.inj hok
          exact manualPairs_mem ctx w ht (2 ^ a) (2 ^ (b - a)) radius dst d _ src hd
      rcases hmem with ⟨sb, rfl⟩ | ⟨sb, rfl⟩ <;>
      · obtain ⟨h1, h2, h3, h4⟩ := dispatch_fields_box (kernelName BK_MANUAL) w ht
          (2 ^ a) (2 ^ (b - a)) sb _ radius a (b - a) rfl rfl (by omega) (by omega)
          hw hht (by omega) (by omega)
        exact ⟨h1, h2, h3, fun hc => absurd hc (by simp), fun _ => h4⟩
  · simp only [box_blur_specific, hdiveq] at hok
    split at hok
    · exact absurd hok (by simp)
    · obtain rfl : _ = L := Except.ok.inj hok
      rcases directReps_mem ctx w ht (2 ^ a) (2 ^ (b - a)) radius dst d _ src hd with
        ⟨sb, rfl⟩ | ⟨sb, rfl⟩
      · obtain ⟨h1, h2, h3, h4⟩ := dispatch_fields_box (kernelName BK_DIRECT) w ht
          (2 ^ a) (2 ^ (b - a)) sb _ radius a (b - a) rfl rfl (by omega) (by omega)
          hw hht (by omega) (by omega)
        exact ⟨h1, h2, h3, fun hc => absurd hc (by simp), fun _ => h4⟩
      · obtain ⟨h1, h2, h3, h4⟩ := dispatch_fields_box (kernelName BK_DIRECT) ht w
          (2 ^ a) (2 ^ (b - a)) sb _ radius a (b - a) rfl rfl (by omega) (by omega)
          hht hw (by omega) (by omega)
        exact ⟨h1, h2, h3, fun hc => absurd hc (by simp), fun _ => h4⟩
  · simp only [box_blur_specific, hdiveq] at hok
    split at hok
    · exact absurd hok (by simp)
    · obtain rfl : _ = L := Except.ok.inj hok
      rcases subReps_mem ctx w ht (2 ^ a) (2 ^ (b - a)) radius dst d _ src hd with
        ⟨sb, rfl⟩ | ⟨sb, rfl⟩
      · obtain ⟨h1, h2, h3, h4⟩ := dispatch_fields_sub (kernelName BK_SUBBLOCK) w ht
          (2 ^ a) (2 ^ (b - a)) sb _ radius ctx.wparams (b - a) rfl (by omega)
          hht (by omega)
        exact ⟨h1, h2, h3, fun _ => h4, fun hc => absurd rfl hc⟩
      · obtain ⟨h1, h2, h3, h4⟩ := dispatch_fields_sub (kernelName BK_SUBBLOCK) ht w
          (2 ^ a) (2 ^ (b - a)) sb _ radius ctx.hparams (b - a) rfl (by omega)
          hw (by omega)
        exact ⟨h1, h2, h3, fun _ => h4, fun hc => absurd rfl hc⟩

/-- C3 amended witness: the first Direct pass of the counterexample
configuration, checked against the amended sizing. -/
theorem box_dispatch_sizing_amended_w :
    (invoke_box (kernelName BK_DIRECT) 1920 1080 32 8 10 2 3).l0 = 2 ^ 5 ∧
    (invoke_box (kernelName BK_DIRECT) 1920 1080 32 8 10 2 3).l1 = 2 ^ (8 - 5) ∧
    (invoke_box (kernelName BK_DIRECT) 1920 1080 32 8 10 2 3).g1 =
      ((invoke_box (kernelName BK_DIRECT) 1920 1080 32 8 10 2 3).height +
        2 ^ (8 - 5) - 1) / 2 ^ (8 - 5) * 2 ^ (8 - 5) ∧
    (BK_DIRECT = BK_SUBBLOCK →
      (invoke_box (kernelName BK_DIRECT) 1920 1080 32 8 10 2 3).g0 = 2 ^ 5) ∧
    (BK_DIRECT ≠ BK_SUBBLOCK →
      (invoke_box (kernelName BK_DIRECT) 1920 1080 32 8 10 2 3).g0 =
        ((invoke_box (kernelName BK_DIRECT) 1920 1080 32 8 10 2 3).width +
          2 ^ 5 - 1) / 2 ^ 5 * 2 ^ 5) :=
  box_dispatch_sizing_amended ctx0 10 11 3 1920 1080 BK_DIRECT 1 5 8
    (by norm_num) (by norm_num) rfl (by norm_num) (by norm_num)
    (by norm_num) (by norm_num) _ rfl
    (invoke_box (kernelName BK_DIRECT) 1920 1080 32 8 10 2 3) (by decide)

theorem radiusSweep_eq_filter (bk : BoxKernel) (nblk : Nat) :
    ∀ (n s : Nat), radiusSweep bk nblk (List.range' s n) =
      ((List.range' s n).filter
        (fun r => ! (decide (bk = BK_MANUAL) && decide (r > 1)))).flatMap
        (configEvents bk nblk) := by
  intro n
  induction n with
  | zero => intro s; rfl
  | succ m ih =>
    intro s
    rw [List.range'_succ]
    by_cases hb : bk = BK_MANUAL ∧ s > 1
    · rw [show radiusSweep bk nblk (s :: List.range' (s + 1) m) = [] from by
        simp [radiusSweep, hb]]
      have hfil : List.filter
          (fun r => ! (decide (bk = BK_MANUAL) && decide (r > 1)))
          (s :: List.range' (s + 1) m) = [] := by
        rw [List.filter_eq_nil_iff]
        intro x hx
        have hxmem : x = s ∨ x ∈ List.range' (s + 1) m := by simpa using hx
        have hx1 : x > 1 := by
          rcases hxmem with rfl | hxm
          · exact hb.2
          · have := List.mem_range'_1.mp hxm
            omega
        simp [hb.1, hx1]
      rw [hfil]
      rfl
    · rw [show radiusSweep bk nblk (s :: List.range' (s + 1) m) =
        configEvents bk nblk s ++ radiusSweep bk nblk (List.range' (s + 1) m) from by
          simp [radiusSweep, hb]]
      rw [ih (s + 1)]
      have hpred : (! (decide (bk = BK_MANUAL) && decide (s > 1))) = true := by
        by_cases h1 : bk = BK_MANUAL
        · have h2 : ¬s > 1 := fun h => hb ⟨h1, h⟩
          simp [h1, h2]
        · simp [h1]
      rw [List.filter_cons, if_pos hpred, List.flatMap_cons]

theorem box_test_candidates_eq (bk : BoxKernel) (K : Nat) (hK : 2 ≤ K)
    (wg : BoxKernel → Nat) (minr maxr : Nat) :
    (List.range (K - 2 + 1)).flatMap (fun i =>
      if 2 ^ K >>> i > wg bk then []
      else (if bk = BK_SUBBLOCK then [TestEvent.setup (2 ^ K >>> i)] else []) ++
        radiusSweep bk (2 ^ K >>> i) (List.range' minr (maxr + 1 - minr))) =
    (spec_pow2_desc K).flatMap (fun nblk =>
      if nblk > wg bk then []
      else (if bk = BK_SUBBLOCK then [TestEvent.setup nblk] else []) ++
        ((List.range' minr (maxr + 1 - minr)).filter
          (fun r => ! (decide (bk = BK_MANUAL) && decide (r > 1)))).flatMap
          (configEvents bk nblk)) := by
  unfold spec_pow2_desc
  rw [List.flatMap_map]
  have hlen : K - 2 + 1 = K - 1 := by omega
  rw [hlen]
  apply List.flatMap_congr
  intro i hi
  have hiK : i < K - 1 := List.mem_range.mp hi
  have hshift : 2 ^ K >>> i = 2 ^ (K - i) := by
    rw [Nat.shiftRight_eq_div_pow, Nat.pow_div (by omega) (by norm_num)]
  rw [hshift, radiusSweep_eq_filter]

/-- C7: the benchmark sweep of `box_test` visits every strategy; for each
strategy the candidate block counts are exactly the powers of two from the
device's maximum workgroup size (`2 ^ K`) down to 4, in descending order,
skipping candidates above that strategy's own kernel workgroup limit (for
Subblock, forcing the routing table uniform and rebuilding the partition
tables before timing); for each radius in `[min_radius, max_radius]`,
skipping Manual whenever radius > 1, it runs the blur three times in a
row with a blocking queue wait after each run and records the three
per-run times and their average. -/
theorem box_test_sweep_trace (K : Nat) (wg : BoxKernel → Nat) (minr maxr : Nat)
    (hK : 2 ≤ K) :
    box_test_trace (2 ^ K) wg minr maxr = spec_box_test_trace K wg minr maxr := by
  have hlog : Nat.log2 (2 ^ K / 4) = K - 2 := by
    have h4 : (4 : Nat) = 2 ^ 2 := rfl
    rw [h4, Nat.pow_div (by omega) (by norm_num), Nat.log2_eq_log_two,
      Nat.log_pow (by norm_num)]
  simp only [box_test_trace, spec_box_test_trace]
  simp only [hlog]
  apply List.flatMap_congr
  intro bk _
  exact box_test_candidates_eq bk K hK wg minr maxr

/-- C7 witness: the sweep trace for a device maximum of `2 ^ 3 = 8`,
kernel limits 8, radii 1–2. -/
theorem box_test_sweep_trace_w :
    box_test_trace (2 ^ 3) (fun _ => 8) 1 2 =
      spec_box_test_trace 3 (fun _ => 8) 1 2 :=
  box_test_sweep_trace 3 (fun _ => 8) 1 2 (by norm_num)

theorem bestFold_le (t : BoxKernel → Nat → Nat) :
    ∀ (L : List (BoxKernel × Nat)) (acc : Option (BoxKernel × Nat) × Nat),
      (L.foldl (bestStep t) acc).2 ≤ acc.2 ∧
      ∀ p ∈ L, (L.foldl (bestStep t) acc).2 ≤ t p.1 p.2 := by
  intro L
  induction L with
  | nil => intro acc; exact ⟨le_refl _, by simp⟩
  | cons x xs ih =>
    intro acc
    rw [List.foldl_cons]
    obtain ⟨ih1, ih2⟩ := ih (bestStep t acc x)
    constructor
    · refine le_trans ih1 ?_
      unfold bestStep
      split
      · simp only
        omega
      · exact le_refl _
    · intro p hp
      rcases List.mem_cons.mp hp with rfl | hp'
      · refine le_trans ih1 ?_
        unfold bestStep
        split
        · simp only
          omega
        · omega
      · exact ih2 p hp'

theorem bestFold_shape (t : BoxKernel → Nat → Nat) :
    ∀ (L : List (BoxKernel × Nat)) (acc : Option (BoxKernel × Nat) × Nat),
      L.foldl (bestStep t) acc = acc ∨
      ∃ p ∈ L, L.foldl (bestStep t) acc = (some p, t p.1 p.2) := by
  intro L
  induction L with
  | nil => intro acc; exact Or.inl rfl
  | cons x xs ih =>
    intro acc
    rw [List.foldl_cons]
    rcases ih (bestStep t acc x) with h | ⟨p, hp, hfold⟩
    · rw [h]
      unfold bestStep
      split
      · exact Or.inr ⟨x, List.mem_cons_self x xs, rfl⟩
      · exact Or.inl rfl
    · exact Or.inr ⟨p, List.mem_cons_of_mem x hp, hfold⟩

theorem consideredPairs_mem (lognblk radius : Nat) (bk : BoxKernel) (i : Nat) :
    (bk, i) ∈ consideredPairs lognblk radius ↔
      i ≤ lognblk ∧ (bk = BK_MANUAL → radius ≤ 1) := by
  unfold consideredPairs
  cases bk <;>
    simp [List.mem_flatMap, List.mem_filter, List.mem_map, List.mem_range,
      Nat.lt_succ_iff] <;>
    omega

/-- C8: the report loop of `box_test` returns, for a radius, a swept
`(strategy, blockCount-index)` pair whose recorded average time is the
minimum over all swept configurations for that radius (Manual being
excluded whenever radius > 1), provided the swept configurations measured
below the `1e9` sentinel left in unswept cells. -/
theorem box_test_report_minimum (t : BoxKernel → Nat → Nat)
    (maxnblk lognblk radius : Nat) (wg : BoxKernel → Nat)
    (hsent : ∀ bk i, i ≤ lognblk → ¬sweptCfg maxnblk wg radius bk i →
      t bk i = TIME_SENTINEL)
    (hmeas : ∀ bk i, i ≤ lognblk → sweptCfg maxnblk wg radius bk i →
      t bk i < TIME_SENTINEL)
    (hex : ∃ bk i, i ≤ lognblk ∧ sweptCfg maxnblk wg radius bk i) :
    ∃ bk i, best_config t lognblk radius = (some (bk, i), t bk i) ∧
      sweptCfg maxnblk wg radius bk i ∧
      ∀ bk' i', i' ≤ lognblk → sweptCfg maxnblk wg radius bk' i' →
        t bk i ≤ t bk' i' := by
  obtain ⟨bk0, i0, hi0, hsw0⟩ := hex
  have hmem0 : (bk0, i0) ∈ consideredPairs lognblk radius :=
    (consideredPairs_mem lognblk radius bk0 i0).mpr ⟨hi0, fun h => hsw0.2 h⟩
  have hfl := bestFold_le t (consideredPairs lognblk radius) (none, UINT_MAX)
  have hfs := bestFold_shape t (consideredPairs lognblk radius) (none, UINT_MAX)
  have ht0 : t bk0 i0 < TIME_SENTINEL := hmeas bk0 i0 hi0 hsw0
  unfold best_config
  have hlt : ((consideredPairs lognblk radius).foldl (bestStep t)
      (none, UINT_MAX)).2 < TIME_SENTINEL :=
    lt_of_le_of_lt (hfl.2 (bk0, i0) hmem0) ht0
  rcases hfs with heq | ⟨p, hp, hfold⟩
  · rw [heq] at hlt
    exact absurd hlt (by norm_num [UINT_MAX, TIME_SENTINEL])
  · obtain ⟨pbk, pi⟩ := p
    have hpc := (consideredPairs_mem lognblk radius pbk pi).mp hp
    have hfold2 : ((consideredPairs lognblk radius).foldl (bestStep t)
        (none, UINT_MAX)).2 = t pbk pi := by rw [hfold]
    have hps : sweptCfg maxnblk wg radius pbk pi := by
      by_contra hns
      have hval := hsent pbk pi hpc.1 hns
      rw [hfold2] at hlt
      omega
    refine ⟨pbk, pi, hfold, hps, ?_⟩
    intro bk' i' hi' hsw'
    have hmem' : (bk', i') ∈ consideredPairs lognblk radius :=
      (consideredPairs_mem lognblk radius bk' i').mpr ⟨hi', fun h => hsw'.2 h⟩
    have hle := hfl.2 (bk', i') hmem'
    rw [hfold2] at hle
    exact hle

/-- C8 witness: a concrete table (`Manual` at the sentinel, `Direct` and
`Subblock` measured) for radius 2, two block-count indices. -/
theorem box_test_report_minimum_w :
    ∃ bk i, best_config
        (fun bk i => if bk = BK_MANUAL then TIME_SENTINEL
          else if bk = BK_DIRECT then 100 + i else 200) 1 2 =
        (some (bk, i),
          (fun bk i => if bk = BK_MANUAL then TIME_SENTINEL
            else if bk = BK_DIRECT then 100 + i else 200) bk i) ∧
      sweptCfg 8 (fun _ => 8) 2 bk i ∧
      ∀ bk' i', i' ≤ 1 → sweptCfg 8 (fun _ => 8) 2 bk' i' →
        (fun bk i => if bk = BK_MANUAL then TIME_SENTINEL
          else if bk = BK_DIRECT then 100 + i else 200) bk i ≤
        (fun bk i => if bk = BK_MANUAL then TIME_SENTINEL
          else if bk = BK_DIRECT then 100 + i else 200) bk' i' :=
  box_test_report_minimum
    (fun bk i => if bk = BK_MANUAL then TIME_SENTINEL
      else if bk = BK_DIRECT then 100 + i else 200)
    8 1 2 (fun _ => 8) (by decide) (by decide)
    ⟨BK_DIRECT, 0, by norm_num, by decide⟩

end Zounds
